import Mathlib

set_option maxRecDepth 8192

/-!
Shallow embedding of the arbor code-intelligence graph (crates/arbor-graph
and the re-indexer loop of crates/arbor-server/src/sync_server.rs).

Modelling conventions:
* Rust `usize` indexes are `Nat`; machine overflow is unreachable at the
  sizes involved (indexes are bounded by collection lengths).
* `HashMap` / `HashSet` are association lists with one entry per key;
  all observations the claims make of them are order-independent or go
  through an explicit sort, matching Rust's unordered iteration.
* petgraph's `DiGraph` is a node list (position = `NodeIndex`) plus an
  edge list in insertion order.  `remove_node` swap-removes: the last
  node adopts the removed index, and edges are re-pointed accordingly.
  Neighbor / edge iteration and `find_edge` see edges newest-first,
  matching petgraph's head-insertion adjacency lists.  The relative
  order of surviving edges after a removal is modelled by `filter`;
  no modelled observation depends on it.
* `f64` centrality scores are modelled as `Rat`; every value the claims
  touch is an exact constant (the `0.0` default).
* Wall-clock time (`query_time_ms` on the successful path) is abstracted
  to `0`; the hard-coded `0` of the early-return path is kept literally.
* Rust string lowercasing / containment are modelled on character lists;
  all strings the claims touch are ASCII, where `to_lowercase` is
  exactly per-character ASCII lowercasing.
-/

/-- ASCII lowercasing of one character (Rust `char::to_lowercase`,
restricted to the ASCII inputs the claims use). -/
def asciiLower (c : Char) : Char :=
  if 'A' ≤ c ∧ c ≤ 'Z' then Char.ofNat (c.toNat + 32) else c

/-- Rust `str::to_lowercase` on ASCII strings. -/
def lowerStr (s : String) : String :=
  ⟨s.data.map asciiLower⟩

/-- Boolean list-prefix test. -/
def isPrefixOfB : List Char → List Char → Bool
  | [], _ => true
  | _ :: _, [] => false
  | a :: as, b :: bs => a == b && isPrefixOfB as bs

/-- Rust `str::contains` (substring containment) on character lists. -/
def containsSub : List Char → List Char → Bool
  | hay, needle =>
    isPrefixOfB needle hay ||
      match hay with
      | [] => false
      | _ :: t => containsSub t needle

/-- Rust `str::contains` on strings. -/
def strContains (hay needle : String) : Bool :=
  containsSub hay.data needle.data

/-- Rust `str::starts_with` on strings. -/
def strStartsWith (s pre : String) : Bool :=
  isPrefixOfB pre.data s.data

/-- Association-list lookup (`HashMap::get`). -/
def alGet {α : Type} [BEq α] {β : Type} (m : List (α × β)) (k : α) : Option β :=
  (m.find? (fun p => p.1 == k)).map (·.2)

/-- Association-list insert with overwrite (`HashMap::insert`).
Keys stay unique: an existing entry is replaced in place. -/
def alInsert {α : Type} [BEq α] {β : Type} (m : List (α × β)) (k : α) (v : β) :
    List (α × β) :=
  if m.any (fun p => p.1 == k) then
    m.map (fun p => if p.1 == k then (k, v) else p)
  else
    m ++ [(k, v)]

/-- Association-list insert-if-absent (`HashMap::entry(k).or_insert(v)`). -/
def alInsertIfAbsent {α : Type} [BEq α] {β : Type} (m : List (α × β)) (k : α)
    (v : β) : List (α × β) :=
  if m.any (fun p => p.1 == k) then m else m ++ [(k, v)]

/-- Association-list removal (`HashMap::remove`). -/
def alRemove {α : Type} [BEq α] {β : Type} (m : List (α × β)) (k : α) :
    List (α × β) :=
  m.filter (fun p => !(p.1 == k))

/-- In-place modification of one entry's value (`HashMap::get_mut`). -/
def alModify {α : Type} [BEq α] {β : Type} (m : List (α × β)) (k : α)
    (f : β → β) : List (α × β) :=
  m.map (fun p => if p.1 == k then (p.1, f p.2) else p)

/-- Append to the list stored under a key, defaulting to the empty list
(`map.entry(k).or_default().push(v)`). -/
def alPush {α : Type} [BEq α] {β : Type} (m : List (α × List β)) (k : α)
    (v : β) : List (α × List β) :=
  if m.any (fun p => p.1 == k) then
    m.map (fun p => if p.1 == k then (p.1, p.2 ++ [v]) else p)
  else
    m ++ [(k, [v])]

/-- Add to the set stored under a key (`HashSet::insert` inside
`entry(k).or_default()`); sets are lists without duplicates. -/
def alPushSet {α : Type} [BEq α] {β : Type} [BEq β] (m : List (α × List β))
    (k : α) (v : β) : List (α × List β) :=
  if m.any (fun p => p.1 == k) then
    m.map (fun p =>
      if p.1 == k then (p.1, if p.2.any (· == v) then p.2 else p.2 ++ [v])
      else p)
  else
    m ++ [(k, [v])]

/-- Insertion into a list sorted by the Boolean relation `le`. -/
def sortedInsert {α : Type} (le : α → α → Bool) (x : α) : List α → List α
  | [] => [x]
  | y :: ys => if le x y then x :: y :: ys else y :: sortedInsert le x ys

/-- Comparator sort (Rust `slice::sort` / `sort_by`); the claims never
observe the relative order of comparator-equal elements. -/
def sortBy {α : Type} (le : α → α → Bool) : List α → List α
  | [] => []
  | x :: xs => sortedInsert le x (sortBy le xs)

/-- Rust `Vec::dedup`: removes consecutive duplicates. -/
def dedupConsec {α : Type} [BEq α] : List α → List α
  | [] => []
  | [x] => [x]
  | x :: y :: rest =>
    if x == y then dedupConsec (y :: rest) else x :: dedupConsec (y :: rest)

/-- Symbol kinds (spec section 3; `arbor-core/src/node.rs` is not under
`src/`, so the enum is modelled from the spec's list). -/
inductive NodeKind where
  | Function | Method | Class | Struct | Interface | Enum | Constant
  | Variable | Field | Constructor | Module | Import | TypeAlias
  deriving DecidableEq

/-- Symbol visibility (spec section 3). -/
inductive Visibility where
  | Public | Protected | Private | Internal
  deriving DecidableEq

/-- Modelled from the spec: a code symbol (`CodeNode` lives in the
missing `arbor-core/src/node.rs`; fields follow spec section 3 and the
field accesses visible in `graph.rs` / `impact.rs`). -/
structure CodeNode where
  id : String
  name : String
  qualified_name : String
  kind : NodeKind
  file : String
  line_start : Nat
  line_end : Nat
  column : Nat
  byte_start : Nat
  byte_end : Nat
  visibility : Visibility
  signature : Option String
  references : List String
  deriving DecidableEq

instance : Inhabited CodeNode :=
  ⟨⟨"", "", "", NodeKind.Function, "", 0, 0, 0, 0, 0, Visibility.Internal,
    none, []⟩⟩

/-- Edge kinds, from `arbor-graph/src/edge.rs`. -/
inductive EdgeKind where
  | Calls | Imports | Extends | Implements | UsesType | References
  | Contains | FlowsTo | DataDependency
  deriving DecidableEq

/-- Edge weight (`Edge` in `edge.rs`). -/
structure Edge where
  kind : EdgeKind
  file : Option String
  line : Option Nat
  deriving DecidableEq

/-- `Edge::new`. -/
def Edge.new (kind : EdgeKind) : Edge :=
  ⟨kind, none, none⟩

/-- Export form of an edge (`GraphEdge` in `edge.rs`). -/
structure GraphEdge where
  source : String
  target : String
  kind : EdgeKind
  deriving DecidableEq

/-- One edge of the petgraph store: endpoint indexes plus weight. -/
structure EdgeEntry where
  src : Nat
  tgt : Nat
  w : Edge
  deriving DecidableEq

/-- The code relationship graph (`ArborGraph` in `graph.rs`): a petgraph
`DiGraph` (node list + edge list) plus the id / name / file indexes and
the centrality map. -/
structure ArborGraph where
  nodes : List CodeNode
  edges : List EdgeEntry
  id_index : List (String × Nat)
  name_index : List (String × List Nat)
  file_index : List (String × List Nat)
  centrality : List (Nat × Rat)
  deriving DecidableEq

/-- `ArborGraph::new`. -/
def ArborGraph.new : ArborGraph :=
  ⟨[], [], [], [], [], []⟩

/-- petgraph `Graph::remove_node`: out-of-bounds indexes are ignored
(`remove_node` returns `None`); otherwise all incident edges are
dropped and the last node is swapped into the removed position, with
edges re-pointed from the old last index to the freed one. -/
def pgRemoveNode (nodes : List CodeNode) (edges : List EdgeEntry) (a : Nat) :
    List CodeNode × List EdgeEntry :=
  if a < nodes.length then
    let last := nodes.length - 1
    let kept := edges.filter (fun e => !(e.src == a) && !(e.tgt == a))
    let moved := kept.map (fun e =>
      { e with
        src := if e.src == last then a else e.src
        tgt := if e.tgt == last then a else e.tgt })
    (((nodes.set a ((nodes.get? last).getD default)).take last), moved)
  else
    (nodes, edges)

/-- `ArborGraph::add_node`: appends the node (petgraph assigns the next
index) and updates all three indexes; returns the new index. -/
def ArborGraph.add_node (g : ArborGraph) (node : CodeNode) :
    Nat × ArborGraph :=
  let index := g.nodes.length
  (index,
    { g with
      nodes := g.nodes ++ [node]
      id_index := alInsert g.id_index node.id index
      name_index := alPush g.name_index node.name index
      file_index := alPush g.file_index node.file index })

/-- `ArborGraph::add_edge`: appends the edge.  (petgraph panics on an
invalid endpoint; every modelled caller passes live indexes.) -/
def ArborGraph.add_edge (g : ArborGraph) (from_ to_ : Nat) (edge : Edge) :
    ArborGraph :=
  { g with edges := g.edges ++ [⟨from_, to_, edge⟩] }

/-- `ArborGraph::get`: node weight by index. -/
def ArborGraph.get (g : ArborGraph) (index : Nat) : Option CodeNode :=
  g.nodes.get? index

/-- `ArborGraph::get_by_id`. -/
def ArborGraph.get_by_id (g : ArborGraph) (id : String) : Option CodeNode :=
  match alGet g.id_index id with
  | none => none
  | some index => g.nodes.get? index

/-- `ArborGraph::get_index`. -/
def ArborGraph.get_index (g : ArborGraph) (id : String) : Option Nat :=
  alGet g.id_index id

/-- `ArborGraph::find_by_name`. -/
def ArborGraph.find_by_name (g : ArborGraph) (name : String) :
    List CodeNode :=
  match alGet g.name_index name with
  | none => []
  | some indexes => indexes.filterMap (fun idx => g.nodes.get? idx)

/-- `ArborGraph::find_by_file`. -/
def ArborGraph.find_by_file (g : ArborGraph) (file : String) :
    List CodeNode :=
  match alGet g.file_index file with
  | none => []
  | some indexes => indexes.filterMap (fun idx => g.nodes.get? idx)

/-- `ArborGraph::search`: a linear scan keeping every node whose
lowercased name contains the lowercased query as a substring. -/
def ArborGraph.search (g : ArborGraph) (query : String) : List CodeNode :=
  let query_lower := lowerStr query
  g.nodes.filter (fun node => strContains (lowerStr node.name) query_lower)

/-- petgraph `neighbors_directed(x, Incoming)`: sources of the incoming
edges, newest edge first. -/
def incomingNeighbors (g : ArborGraph) (x : Nat) : List Nat :=
  ((g.edges.filter (fun e => e.tgt == x)).reverse).map (·.src)

/-- petgraph `neighbors_directed(x, Outgoing)`: targets of the outgoing
edges, newest edge first. -/
def outgoingNeighbors (g : ArborGraph) (x : Nat) : List Nat :=
  ((g.edges.filter (fun e => e.src == x)).reverse).map (·.tgt)

/-- petgraph `find_edge(a, b)`: the most recently added edge `a → b`. -/
def findEdge (g : ArborGraph) (a b : Nat) : Option EdgeEntry :=
  g.edges.reverse.find? (fun e => e.src == a && e.tgt == b)

/-- `ArborGraph::get_callers`: for each incoming neighbor occurrence,
looks up `find_edge(neighbor, index)` and keeps the neighbor's weight
when that edge's kind is `Calls`. -/
def ArborGraph.get_callers (g : ArborGraph) (index : Nat) : List CodeNode :=
  (incomingNeighbors g index).filterMap (fun idx =>
    match findEdge g idx index with
    | none => none
    | some e =>
      if e.w.kind == EdgeKind.Calls then g.nodes.get? idx else none)

/-- `ArborGraph::get_callees`: mirror image of `get_callers` over
outgoing neighbors. -/
def ArborGraph.get_callees (g : ArborGraph) (index : Nat) : List CodeNode :=
  (outgoingNeighbors g index).filterMap (fun idx =>
    match findEdge g index idx with
    | none => none
    | some e =>
      if e.w.kind == EdgeKind.Calls then g.nodes.get? idx else none)

/-- One iteration step of `ArborGraph::get_dependents`' work-list loop.
The Rust loop pops from the END of a `Vec` (LIFO); the model keeps the
stack top at the list head, so pushing the neighbors in iteration order
prepends them reversed.  `fuel` only bounds the recursion; it is chosen
generously enough in `get_dependents` that it never runs out on the
modelled inputs, and every proved property is preserved by early stop. -/
def depLoop (g : ArborGraph) (index max_depth : Nat) :
    Nat → List Nat → List (Nat × Nat) → List (Nat × Nat) →
    List (Nat × Nat)
  | 0, _, _, result => result
  | _ + 1, _, [], result => result
  | fuel + 1, visited, (current, depth) :: rest, result =>
    if depth > max_depth || visited.contains current then
      depLoop g index max_depth fuel visited rest result
    else
      let visited' := current :: visited
      let result' :=
        if current ≠ index then result ++ [(current, depth)] else result
      let pushes :=
        ((incomingNeighbors g current).filter
          (fun n => !(visited'.contains n))).map (fun n => (n, depth + 1))
      depLoop g index max_depth fuel visited' (pushes.reverse ++ rest) result'

/-- `ArborGraph::get_dependents`: work-list traversal over incoming
edges starting from `(index, 0)`. -/
def ArborGraph.get_dependents (g : ArborGraph) (index max_depth : Nat) :
    List (Nat × Nat) :=
  depLoop g index max_depth
    ((g.nodes.length + 2 * g.edges.length + 2) * (g.edges.length + 2))
    [] [(index, 0)] []

/-- `ArborGraph::remove_file`: takes the file's index list (removing the
`file_index` entry), then for each stored index cleans the name and id
indexes from the node weight currently at that index (skipping the
cleanup when the index is already dead) and calls petgraph
`remove_node`. -/
def ArborGraph.remove_file (g : ArborGraph) (file : String) : ArborGraph :=
  match alGet g.file_index file with
  | none => g
  | some indexes =>
    let g0 := { g with file_index := alRemove g.file_index file }
    indexes.foldl
      (fun acc index =>
        let acc' :=
          match acc.nodes.get? index with
          | some node =>
            { acc with
              name_index :=
                alModify acc.name_index node.name
                  (fun l => l.filter (fun idx => !(idx == index)))
              id_index := alRemove acc.id_index node.id }
          | none => acc
        let p := pgRemoveNode acc'.nodes acc'.edges index
        { acc' with nodes := p.1, edges := p.2 })
      g0

/-- `ArborGraph::centrality`: score lookup defaulting to `0.0`. -/
def ArborGraph.centralityOf (g : ArborGraph) (index : Nat) : Rat :=
  (alGet g.centrality index).getD 0

/-- `ArborGraph::node_count`. -/
def ArborGraph.node_count (g : ArborGraph) : Nat :=
  g.nodes.length

/-- `ArborGraph::edge_count`. -/
def ArborGraph.edge_count (g : ArborGraph) : Nat :=
  g.edges.length

/-- `ArborGraph::export_edges`: every edge as
`(source id, target id, kind)`.  (The Rust code unwraps the endpoint
weights; endpoints of live edges are always live, the default covers
the impossible branch.) -/
def ArborGraph.export_edges (g : ArborGraph) : List GraphEdge :=
  g.edges.map (fun e =>
    { source := ((g.nodes.get? e.src).getD default).id
      target := ((g.nodes.get? e.tgt).getD default).id
      kind := e.w.kind })

/-- Severity of impact (`ImpactSeverity` in `impact.rs`). -/
inductive ImpactSeverity where
  | Direct | Transitive | Distant
  deriving DecidableEq

/-- Discriminant used by the derived `Ord` of `ImpactSeverity`
(`Direct = 0`, `Transitive = 1`, `Distant = 2`). -/
def sevRank : ImpactSeverity → Nat
  | ImpactSeverity.Direct => 0
  | ImpactSeverity.Transitive => 1
  | ImpactSeverity.Distant => 2

/-- `ImpactSeverity::from_hops`: 0-1 Direct, 2-3 Transitive, else
Distant. -/
def ImpactSeverity.from_hops (hops : Nat) : ImpactSeverity :=
  match hops with
  | 0 | 1 => ImpactSeverity.Direct
  | 2 | 3 => ImpactSeverity.Transitive
  | _ => ImpactSeverity.Distant

/-- Direction of impact (`ImpactDirection` in `impact.rs`). -/
inductive ImpactDirection where
  | Upstream | Downstream
  deriving DecidableEq

/-- petgraph traversal direction. -/
inductive PDirection where
  | Incoming | Outgoing
  deriving DecidableEq

/-- petgraph `edges_directed(x, dir)`: the incident edges in the given
direction, newest first. -/
def edgesDirected (g : ArborGraph) (x : Nat) : PDirection → List EdgeEntry
  | PDirection.Incoming => (g.edges.filter (fun e => e.tgt == x)).reverse
  | PDirection.Outgoing => (g.edges.filter (fun e => e.src == x)).reverse

/-- The node on the far side of an edge for a traversal direction. -/
def edgeNeighbor (dir : PDirection) (e : EdgeEntry) : Nat :=
  match dir with
  | PDirection.Incoming => e.src
  | PDirection.Outgoing => e.tgt

/-- Modelled from the spec: `NodeInfo` (its definition lives in the
missing `arbor-graph/src/query.rs`; the fields are exactly the ones the
literal constructor in `impact.rs` lines 183-193 populates). -/
structure NodeInfo where
  id : String
  name : String
  qualified_name : String
  kind : String
  file : String
  line_start : Nat
  line_end : Nat
  signature : Option String
  centrality : Rat
  deriving DecidableEq

/-- Display string of a node kind (spec section 3 names). -/
def nodeKindStr : NodeKind → String
  | NodeKind.Function => "function"
  | NodeKind.Method => "method"
  | NodeKind.Class => "class"
  | NodeKind.Struct => "struct"
  | NodeKind.Interface => "interface"
  | NodeKind.Enum => "enum"
  | NodeKind.Constant => "constant"
  | NodeKind.Variable => "variable"
  | NodeKind.Field => "field"
  | NodeKind.Constructor => "constructor"
  | NodeKind.Module => "module"
  | NodeKind.Import => "import"
  | NodeKind.TypeAlias => "type_alias"

/-- Modelled from the spec: `NodeInfo::from(&CodeNode)` (missing
`query.rs`): copies the node's fields; centrality defaults to `0.0`
and is overridden by callers that have a score at hand. -/
def NodeInfo.fromNode (node : CodeNode) : NodeInfo :=
  { id := node.id
    name := node.name
    qualified_name := node.qualified_name
    kind := nodeKindStr node.kind
    file := node.file
    line_start := node.line_start
    line_end := node.line_end
    signature := node.signature
    centrality := 0 }

/-- A node affected by a change (`AffectedNode` in `impact.rs`). -/
structure AffectedNode where
  node_id : Nat
  node_info : NodeInfo
  severity : ImpactSeverity
  hop_distance : Nat
  entry_edge : EdgeKind
  direction : ImpactDirection
  deriving DecidableEq

/-- Complete impact analysis result (`ImpactAnalysis` in `impact.rs`). -/
structure ImpactAnalysis where
  target : NodeInfo
  upstream : List AffectedNode
  downstream : List AffectedNode
  total_affected : Nat
  max_depth : Nat
  query_time_ms : Nat
  deriving DecidableEq

/-- Lexicographic ≤ on character lists (Rust `str` ordering; the
modelled ids are ASCII so byte order equals char order). -/
def charListLe : List Char → List Char → Bool
  | [], _ => true
  | _ :: _, [] => false
  | a :: as, b :: bs =>
    if a < b then true else if b < a then false else charListLe as bs

/-- Rust `String::cmp` as a ≤ test. -/
def strLe (a b : String) : Bool :=
  charListLe a.data b.data

/-- The `severity → hop_distance → id` comparator of `bfs_impact`,
as "compare is not Greater". -/
def affectedLe (a b : AffectedNode) : Bool :=
  if sevRank a.severity < sevRank b.severity then true
  else if sevRank b.severity < sevRank a.severity then false
  else if a.hop_distance < b.hop_distance then true
  else if b.hop_distance < a.hop_distance then false
  else strLe a.node_info.id b.node_info.id

/-- Builds the `AffectedNode` record pushed by `bfs_impact` for a node
weight found at `current`. -/
def mkAffected (g : ArborGraph) (dir : PDirection) (current depth : Nat)
    (entry_edge : EdgeKind) (node : CodeNode) : AffectedNode :=
  { node_id := current
    node_info :=
      { NodeInfo.fromNode node with centrality := g.centralityOf current }
    severity := ImpactSeverity.from_hops depth
    hop_distance := depth
    entry_edge := entry_edge
    direction :=
      match dir with
      | PDirection.Incoming => ImpactDirection.Upstream
      | PDirection.Outgoing => ImpactDirection.Downstream }

/-- The neighbor-expansion `for` loop of `bfs_impact`: appends the
unvisited far ends of `current`'s incident edges to the FIFO queue,
reading the recorded entry edge before inserting the first-arrival
entry, exactly as the Rust loop mutates `queue` / `entry_edges`. -/
def bfsExpand (g : ArborGraph) (dir : PDirection) (visited : List Nat)
    (current depth : Nat) (entry_edge : EdgeKind)
    (state : List (Nat × Nat × EdgeKind) × List (Nat × EdgeKind)) :
    List (Nat × Nat × EdgeKind) × List (Nat × EdgeKind) :=
  (edgesDirected g current dir).foldl
    (fun st e =>
      let neighbor := edgeNeighbor dir e
      if visited.contains neighbor then st
      else
        let next_entry := (alGet st.2 neighbor).getD entry_edge
        (st.1 ++ [(neighbor, depth + 1, next_entry)],
          alInsertIfAbsent st.2 neighbor e.w.kind))
    state

/-- The `while let` loop of `bfs_impact` (FIFO queue popped at the
head).  `fuel` bounds the recursion and is chosen generously enough in
`bfs_impact`; every proved property survives an early stop. -/
def bfsLoop (g : ArborGraph) (dir : PDirection) (max_depth : Nat) :
    Nat → List Nat → List (Nat × Nat × EdgeKind) → List (Nat × EdgeKind) →
    List AffectedNode → List AffectedNode
  | 0, _, _, _, result => result
  | _ + 1, _, [], _, result => result
  | fuel + 1, visited, (current, depth, entry_edge) :: rest, entry, result =>
    if depth > max_depth || visited.contains current then
      bfsLoop g dir max_depth fuel visited rest entry result
    else
      let visited' := current :: visited
      let result' :=
        match g.nodes.get? current with
        | some node =>
          result ++ [mkAffected g dir current depth entry_edge node]
        | none => result
      if depth < max_depth then
        let st := bfsExpand g dir visited' current depth entry_edge
          (rest, entry)
        bfsLoop g dir max_depth fuel visited' st.1 st.2 result'
      else
        bfsLoop g dir max_depth fuel visited' rest entry result'

/-- The queue/entry-edge seeding loop of `bfs_impact`: one queue entry
per incident edge of the target whose far end is unvisited (the visited
set holds only the target), recording the edge kind with a plain
overwrite insert. -/
def bfsSeed (g : ArborGraph) (target : Nat) (dir : PDirection) :
    List (Nat × Nat × EdgeKind) × List (Nat × EdgeKind) :=
  (edgesDirected g target dir).foldl
    (fun st e =>
      let neighbor := edgeNeighbor dir e
      if [target].contains neighbor then st
      else
        (st.1 ++ [(neighbor, 1, e.w.kind)],
          alInsert st.2 neighbor e.w.kind))
    ([], [])

/-- `ArborGraph::bfs_impact`: seeded FIFO traversal, then the
severity / hop / id sort. -/
def ArborGraph.bfs_impact (g : ArborGraph) (target : Nat)
    (dir : PDirection) (max_depth : Nat) : List AffectedNode :=
  let seeded := bfsSeed g target dir
  sortBy affectedLe
    (bfsLoop g dir max_depth
      ((g.nodes.length + 2 * g.edges.length + 2) * (g.edges.length + 2))
      [target] seeded.1 seeded.2 [])

/-- Rust `usize::MAX`, the effective depth used for `max_depth == 0`. -/
def USIZE_MAX : Nat := 2 ^ 64 - 1

/-- `ArborGraph::analyze_impact`: early-returns an all-empty record for
a dead target handle, otherwise runs the two traversals.  Elapsed
wall-clock time is abstracted to `0`. -/
def ArborGraph.analyze_impact (g : ArborGraph) (target max_depth : Nat) :
    ImpactAnalysis :=
  match g.nodes.get? target with
  | none =>
    { target :=
        { id := ""
          name := ""
          qualified_name := ""
          kind := ""
          file := ""
          line_start := 0
          line_end := 0
          signature := none
          centrality := 0 }
      upstream := []
      downstream := []
      total_affected := 0
      max_depth := max_depth
      query_time_ms := 0 }
  | some node =>
    let effective_depth := if max_depth == 0 then USIZE_MAX else max_depth
    let upstream := g.bfs_impact target PDirection.Incoming effective_depth
    let downstream := g.bfs_impact target PDirection.Outgoing effective_depth
    { target := NodeInfo.fromNode node
      upstream := upstream
      downstream := downstream
      total_affected := upstream.length + downstream.length
      max_depth := max_depth
      query_time_ms := 0 }

/-- The inverted index of `search_index.rs` (`SearchIndex`): lowercased
exact names and lowercased n-grams, each mapping to node ids (the
n-gram postings are `HashSet`s, modelled as duplicate-free lists). -/
structure SearchIndex where
  exact_index : List (String × List Nat)
  ngram_index : List (String × List Nat)
  deriving DecidableEq

/-- `SearchIndex::new`. -/
def SearchIndex.new : SearchIndex :=
  ⟨[], []⟩

/-- `SearchIndex::generate_ngrams`: every window of length 2, 3 and 4
of the (already lowercased) name, in that order. -/
def generateNgrams (s : String) : List String :=
  let chars := s.data
  (List.range' 2 3).foldl
    (fun acc n =>
      if chars.length ≥ n then
        acc ++ (List.range (chars.length - n + 1)).map
          (fun i => ⟨(chars.drop i).take n⟩)
      else acc)
    []

/-- `SearchIndex::insert`. -/
def SearchIndex.insert (idx : SearchIndex) (name : String) (id : Nat) :
    SearchIndex :=
  let lower := lowerStr name
  { exact_index := alPush idx.exact_index lower id
    ngram_index :=
      (generateNgrams lower).foldl
        (fun m ngram => alPushSet m ngram id) idx.ngram_index }

/-- The candidate-intersection loop of `SearchIndex::search`; `none`
models the early `return Vec::new()` on an n-gram with no postings. -/
def ngramLoop (ngidx : List (String × List Nat)) :
    List String → Option (List Nat) → Option (List Nat)
  | [], acc => acc
  | ng :: rest, acc =>
    match alGet ngidx ng with
    | some ids =>
      match acc with
      | none => ngramLoop ngidx rest (some ids)
      | some c =>
        ngramLoop ngidx rest (some (c.filter (fun id => ids.contains id)))
    | none => none

/-- `SearchIndex::search`: prefix match on the exact index for queries
shorter than 2 (byte length; all modelled queries are ASCII), otherwise
n-gram intersection confirmed by a full substring test; both paths
sort (and the short path dedups) for deterministic output. -/
def SearchIndex.search (idx : SearchIndex) (query : String) : List Nat :=
  let query_lower := lowerStr query
  if query_lower.data.length < 2 then
    dedupConsec
      (sortBy (fun a b => a ≤ b)
        (((idx.exact_index.filter
            (fun p => strStartsWith p.1 query_lower)).map (·.2)).flatten))
  else
    let query_ngrams := generateNgrams query_lower
    if query_ngrams.isEmpty then []
    else
      match ngramLoop idx.ngram_index query_ngrams none with
      | none => []
      | some candidates =>
        sortBy (fun a b => a ≤ b)
          (candidates.filter (fun id =>
            idx.exact_index.any (fun p =>
              p.2.contains id && strContains p.1 query_lower)))

/-- The logical content bincode serializes for an `ArborGraph` (the
derived `Serialize` walks every field: petgraph emits the node-weight
list and the `(source, target, weight)` edge list, and the four maps
follow).  `store.rs` writes these bytes under the fixed `"main_graph"`
sled key. -/
structure SerializedGraph where
  nodes : List CodeNode
  edges : List EdgeEntry
  id_index : List (String × Nat)
  name_index : List (String × List Nat)
  file_index : List (String × List Nat)
  centrality : List (Nat × Rat)
  deriving DecidableEq

/-- `bincode::serialize` of a graph, modelled as the faithful record of
every serialized field. -/
def bincodeSerialize (g : ArborGraph) : SerializedGraph :=
  ⟨g.nodes, g.edges, g.id_index, g.name_index, g.file_index, g.centrality⟩

/-- `bincode::deserialize`: rebuilds the graph from the stored fields
(petgraph reconstructs its adjacency from the edge-endpoint list). -/
def bincodeDeserialize (s : SerializedGraph) : ArborGraph :=
  ⟨s.nodes, s.edges, s.id_index, s.name_index, s.file_index, s.centrality⟩

/-- `GraphStore::save_graph`: the sled database's `"main_graph"` slot is
modelled as the optional stored value; saving overwrites it. -/
def GraphStore.save_graph (_db : Option SerializedGraph) (g : ArborGraph) :
    Option SerializedGraph :=
  some (bincodeSerialize g)

/-- `GraphStore::load_graph`: `None` when the key is absent. -/
def GraphStore.load_graph (db : Option SerializedGraph) :
    Option ArborGraph :=
  db.map bincodeDeserialize

/-- File-watcher events (`WatcherEvent` in `sync_server.rs`). -/
inductive WatcherEvent where
  | Changed (path : String)
  | Created (path : String)
  | Deleted (path : String)
  deriving DecidableEq

/-- Relation kinds emitted by the extractor (`RelationType` in
`parser_v2.rs`). -/
inductive RelationType where
  | Calls | Imports | Extends | Implements
  deriving DecidableEq

/-- A relationship between symbols (`SymbolRelation` in
`parser_v2.rs`). -/
structure SymbolRelation where
  from_id : String
  to_name : String
  kind : RelationType
  line : Nat
  deriving DecidableEq

/-- Result of parsing one file (`ParseResult` in `parser_v2.rs`). -/
structure ParseResult where
  symbols : List CodeNode
  relations : List SymbolRelation
  file_path : String
  deriving DecidableEq

/-- The `RelationType → EdgeKind` match of `run_background_indexer`. -/
def relEdgeKind : RelationType → EdgeKind
  | RelationType.Calls => EdgeKind.Calls
  | RelationType.Imports => EdgeKind.Imports
  | RelationType.Extends => EdgeKind.Extends
  | RelationType.Implements => EdgeKind.Implements

/-- The `Ok(result)` arm of `run_background_indexer`: under the write
lock, remove the file's old subgraph, add the freshly parsed symbols
(recording their indexes), then resolve each relation by name — first
match wins — and add the edge. -/
def applyParsedFile (g : ArborGraph) (result : ParseResult) : ArborGraph :=
  let g1 := g.remove_file result.file_path
  let st :=
    result.symbols.foldl
      (fun (st : ArborGraph × List (String × Nat)) symbol =>
        let p := st.1.add_node symbol
        (p.2, alInsert st.2 symbol.id p.1))
      (g1, [])
  result.relations.foldl
    (fun g relation =>
      match alGet st.2 relation.from_id with
      | none => g
      | some from_id =>
        match (g.find_by_name relation.to_name).head? with
        | none => g
        | some target =>
          match g.get_index target.id with
          | none => g
          | some to_id =>
            g.add_edge from_id to_id (Edge.new (relEdgeKind relation.kind)))
    st.1

/-- One iteration of `run_background_indexer`'s event loop, with the
extractor's outcome passed explicitly (parsing is I/O).  A parse error
is logged and swallowed: the graph is left untouched and the loop keeps
running; `remove_file` happens only inside the `Ok` arm (and for
`Deleted` events). -/
def runBackgroundIndexerStep (g : ArborGraph) (event : WatcherEvent)
    (parse : Except String ParseResult) : ArborGraph :=
  match event with
  | WatcherEvent.Changed _ | WatcherEvent.Created _ =>
    match parse with
    | Except.ok result => applyParsedFile g result
    | Except.error _ => g
  | WatcherEvent.Deleted path => g.remove_file path

/-- A function symbol with the given id, name and file (remaining fields
at their defaults; only these three fields feed the graph indexes). -/
def mkNode (id name file : String) : CodeNode :=
  { id := id
    name := name
    qualified_name := ""
    kind := NodeKind.Function
    file := file
    line_start := 0
    line_end := 0
    column := 0
    byte_start := 0
    byte_end := 0
    visibility := Visibility.Internal
    signature := none
    references := [] }

/-- Two nodes in the same file `"f.rs"`, inserted in order: the input
on which `remove_file` misbehaves. -/
def gTwoInFile : ArborGraph :=
  (((ArborGraph.new.add_node (mkNode "a" "a" "f.rs")).2).add_node
    (mkNode "b" "b" "f.rs")).2

/-- Four nodes `t, a, x, z` (indexes 0-3) with Calls edges
`a → t`, `x → t`, `x → a`, `z → x`, added in that order. -/
def gDep : ArborGraph :=
  let g := ArborGraph.new
  let g := (g.add_node (mkNode "t" "t" "g.rs")).2
  let g := (g.add_node (mkNode "a" "a" "g.rs")).2
  let g := (g.add_node (mkNode "x" "x" "g.rs")).2
  let g := (g.add_node (mkNode "z" "z" "g.rs")).2
  let g := g.add_edge 1 0 (Edge.new EdgeKind.Calls)
  let g := g.add_edge 2 0 (Edge.new EdgeKind.Calls)
  let g := g.add_edge 2 1 (Edge.new EdgeKind.Calls)
  g.add_edge 3 2 (Edge.new EdgeKind.Calls)

/-- Two nodes `u, h` with two parallel edges `u → h`: a `Calls` edge
added first, then a `References` edge. -/
def gParallel : ArborGraph :=
  let g := ArborGraph.new
  let g := (g.add_node (mkNode "u" "u" "p.rs")).2
  let g := (g.add_node (mkNode "h" "h" "p.rs")).2
  let g := g.add_edge 0 1 (Edge.new EdgeKind.Calls)
  g.add_edge 0 1 (Edge.new EdgeKind.References)

/-- The three names of the spec's substring-search scenario. -/
def gNames : ArborGraph :=
  let g := ArborGraph.new
  let g := (g.add_node (mkNode "1" "validate_user" "s.rs")).2
  let g := (g.add_node (mkNode "2" "validate_email" "s.rs")).2
  (g.add_node (mkNode "3" "send_email" "s.rs")).2

/-- The corresponding standalone `SearchIndex` with the same names. -/
def idxNames : SearchIndex :=
  ((SearchIndex.new.insert "validate_user" 0).insert "validate_email" 1).insert
    "send_email" 2

/-- Two nodes `a, b` with one Calls edge `a → b`. -/
def gPair : ArborGraph :=
  let g := ArborGraph.new
  let g := (g.add_node (mkNode "a" "a" "w.rs")).2
  let g := (g.add_node (mkNode "b" "b" "w.rs")).2
  g.add_edge 0 1 (Edge.new EdgeKind.Calls)

/-- A graph whose second inserted node reuses the id `"x"` of the
first. -/
def gDupId : ArborGraph :=
  (((ArborGraph.new.add_node (mkNode "x" "n1" "f1.rs")).2).add_node
    (mkNode "x" "n2" "f2.rs")).2

/-- Specification predicate: there is a walk of exactly `d` incoming
edges from `n` to `t` (i.e. a directed path `n → … → t` of length `d`
following edges forwards, which is `d` hops of the incoming-edge
traversal seen from `t`). -/
def walkB (g : ArborGraph) (t : Nat) : Nat → Nat → Bool
  | n, 0 => n == t
  | n, d + 1 => g.edges.any (fun e => e.src == n && walkB g t e.tgt d)

/-- Specification-side list for the amended C7: the sources of the
`Calls` edges into `h` in the order `get_callers` visits them (newest
first). -/
def callsSources (g : ArborGraph) (h : Nat) : List Nat :=
  ((g.edges.filter fun e => e.tgt == h && e.w.kind == EdgeKind.Calls).reverse).map
    (·.src)

/-- Specification-side list for the amended C7, outgoing direction. -/
def callsTargets (g : ArborGraph) (h : Nat) : List Nat :=
  ((g.edges.filter fun e => e.src == h && e.w.kind == EdgeKind.Calls).reverse).map
    (·.tgt)

/-- The affected node that `analyze_impact` reports for `gPair`'s
downstream direction. -/
def aff8 : AffectedNode :=
  { node_id := 1
    node_info :=
      { id := "b"
        name := "b"
        qualified_name := ""
        kind := "function"
        file := "w.rs"
        line_start := 0
        line_end := 0
        signature := none
        centrality := 0 }
    severity := ImpactSeverity.Direct
    hop_distance := 1
    entry_edge := EdgeKind.Calls
    direction := ImpactDirection.Downstream }

theorem mem_sortedInsert {α : Type} (le : α → α → Bool) (x a : α)
    (l : List α) : a ∈ sortedInsert le x l ↔ a = x ∨ a ∈ l := by
  induction l with
  | nil => simp [sortedInsert]
  | cons y ys ih =>
    simp only [sortedInsert]
    split
    · simp
    · simp [ih]
      tauto

theorem mem_sortBy {α : Type} (le : α → α → Bool) (a : α) (l : List α) :
    a ∈ sortBy le l ↔ a ∈ l := by
  induction l with
  | nil => simp [sortBy]
  | cons x xs ih => simp [sortBy, mem_sortedInsert, ih]

theorem alGet_alInsert {α : Type} [BEq α] [LawfulBEq α] {β : Type}
    (m : List (α × β)) (k : α) (v : β) :
    alGet (alInsert m k v) k = some v := by
  induction m with
  | nil => simp [alInsert, alGet]
  | cons p m ih =>
    by_cases hp : p.1 == k
    · simp [alInsert, alGet, hp]
    · by_cases hm : m.any (fun q => q.1 == k)
      · have hins : alInsert (p :: m) k v =
            p :: (m.map (fun q => if q.1 == k then (k, v) else q)) := by
          simp [alInsert, hp, hm]
        have hins' : alInsert m k v =
            m.map (fun q => if q.1 == k then (k, v) else q) := by
          simp [alInsert, hm]
        rw [hins, ← hins'] at *
        simpa [alGet, List.find?, hp] using ih
      · have hins : alInsert (p :: m) k v = p :: (m ++ [(k, v)]) := by
          simp [alInsert, hp, hm]
        have hins' : alInsert m k v = m ++ [(k, v)] := by
          simp [alInsert, hm]
        rw [hins, ← hins'] at *
        simpa [alGet, List.find?, hp] using ih

/-- C1: evaluation at the failing input.  `gTwoInFile` holds exactly two
nodes, both with `file = "f.rs"`; after `remove_file "f.rs"` the node
`"b"` is still in the graph (petgraph's swap-remove moved it to index 0
before the loop tried to remove the stale index 1), so a node whose
`file` field equals the removed path survives, contradicting the claim
that no such node remains. -/
theorem remove_file_leaves_same_file_node :
    (gTwoInFile.nodes.map CodeNode.file = ["f.rs", "f.rs"]) ∧
    (gTwoInFile.remove_file "f.rs").nodes = [mkNode "b" "b" "f.rs"] ∧
    (mkNode "b" "b" "f.rs").file = "f.rs" :=
  ⟨rfl, rfl, rfl⟩

/-- C2: evaluation at the failing input.  After
`gTwoInFile.remove_file "f.rs"` the surviving node `"b"` lives at
index 0, yet the id index maps `"b"` to the dead handle 1, the name
index likewise keeps the dead handle 1, and the file index has no entry
for `"f.rs"` at all — so a stored handle points at no live node and the
live node `"b"` has no index entry pointing at it, refuting the
coherence invariant. -/
theorem remove_file_breaks_index_coherence :
    ((gTwoInFile.remove_file "f.rs").nodes =
      [mkNode "b" "b" "f.rs"]) ∧
    (alGet (gTwoInFile.remove_file "f.rs").id_index "b" = some 1) ∧
    ((gTwoInFile.remove_file "f.rs").nodes.get? 1 = none) ∧
    (alGet (gTwoInFile.remove_file "f.rs").name_index "b" = some [1]) ∧
    (alGet (gTwoInFile.remove_file "f.rs").file_index "f.rs" = none) :=
  ⟨rfl, rfl, rfl, rfl, rfl⟩

/-- C3 counterexample: on `gDep` (edges `a → t`, `x → t`, `x → a`,
`z → x`), `get_dependents t 2` pairs `x` (index 2) with depth 2 even
though `x → t` is a one-hop path, and omits `z` (index 3) although `z`
reaches `t` in exactly 2 hops — so the traversal is not breadth-first,
depths are not minimal, and in-range nodes can be missed. -/
theorem get_dependents_not_bfs :
    gDep.get_dependents 0 2 = [(1, 1), (2, 2)] ∧
    walkB gDep 0 2 1 = true ∧
    walkB gDep 0 3 2 = true :=
  ⟨rfl, rfl, rfl⟩

/-- C4 counterexample: inserting a second symbol with the already
present id `"x"` is not rejected: the node count grows to 2 and the id
index now points at the new node (the entry for the first was
overwritten). -/
theorem add_node_accepts_duplicate_id :
    gDupId.node_count = 2 ∧
    alGet gDupId.id_index "x" = some 1 ∧
    gDupId.get_by_id "x" = some (mkNode "x" "n2" "f2.rs") :=
  ⟨rfl, rfl, rfl⟩

/-- C4 amended: `add_node` never fails.  It always appends exactly one
node, returns the fresh index, and (over)writes the id-index entry for
the node's id so that it maps to the fresh index — even when the id was
already present. -/
theorem add_node_always_inserts (g : ArborGraph) (node : CodeNode) :
    ((g.add_node node).2).node_count = g.node_count + 1 ∧
    (g.add_node node).1 = g.nodes.length ∧
    alGet ((g.add_node node).2).id_index node.id = some g.nodes.length := by
  refine ⟨?_, rfl, ?_⟩
  · simp [ArborGraph.add_node, ArborGraph.node_count]
  · simpa [ArborGraph.add_node] using
      alGet_alInsert g.id_index node.id g.nodes.length

/-- C5 counterexample: `gTwoInFile` holds two symbols of `"f.rs"`; a
`Changed` event whose parse fails leaves the graph — and hence the
file's stale subgraph — completely untouched, contradicting the claim
that after a parse failure the graph contains no symbols for that
file. -/
theorem parse_failure_keeps_stale_subgraph :
    runBackgroundIndexerStep gTwoInFile (WatcherEvent.Changed "f.rs")
        (Except.error "bad input") = gTwoInFile ∧
    (gTwoInFile.find_by_file "f.rs").length = 2 :=
  ⟨rfl, rfl⟩

/-- C5 amended: on a `Changed` or `Created` event whose parse fails the
indexer loop continues with the graph unchanged — `remove_file` runs
only inside the success arm, so the file's previous subgraph survives
a parse failure. -/
theorem parse_failure_leaves_graph_unchanged (g : ArborGraph)
    (path err : String) :
    runBackgroundIndexerStep g (WatcherEvent.Changed path)
        (Except.error err) = g ∧
    runBackgroundIndexerStep g (WatcherEvent.Created path)
        (Except.error err) = g :=
  ⟨rfl, rfl⟩

/-- C6 counterexample: with exactly the names `validate_user`,
`validate_email`, `send_email` in the graph, `search "a"` does not fall
back to prefix matching — it substring-matches and returns all three
nodes (every name contains an `a`), where the claim promised no
results. -/
theorem search_short_query_substring_matches :
    (gNames.search "a").map CodeNode.name =
      ["validate_user", "validate_email", "send_email"] :=
  rfl

/-- C6 amended: `ArborGraph::search` substring-matches lowercased names
for every query length (it never consults an exact or n-gram index),
so `search "a"` returns all three nodes and `search "va"` returns the
two `validate_*` nodes; the standalone `SearchIndex::search` — which
the graph's `search` does not use — is the function with the claimed
behavior: prefix matching for queries shorter than 2 characters
(empty for `"a"`) and n-gram intersection otherwise (`[0, 1]` for
`"va"`). -/
theorem search_substring_vs_index_prefix :
    (gNames.search "a").map CodeNode.name =
      ["validate_user", "validate_email", "send_email"] ∧
    (gNames.search "va").map CodeNode.name =
      ["validate_user", "validate_email"] ∧
    idxNames.search "a" = [] ∧
    idxNames.search "va" = [0, 1] ∧
    idxNames.search "validate" = [0, 1] :=
  ⟨rfl, rfl, rfl, rfl, rfl⟩

/-- C7 counterexample: in `gParallel` the pair `u → h` carries a
`Calls` edge and a later `References` edge; `get_callers h` consults
only `find_edge` (the newest edge of the pair), sees `References`, and
returns nothing — even though a `Calls` edge `u → h` exists, so `u`
should have been reported. -/
theorem get_callers_misses_parallel_calls_edge :
    gParallel.get_callers 1 = [] ∧
    (⟨0, 1, Edge.new EdgeKind.Calls⟩ : EdgeEntry) ∈ gParallel.edges :=
  ⟨rfl, by decide⟩

/-- C9: saving and loading round-trips.  `save_graph` serializes every
field of the graph under the fixed store key and `load_graph` finds it,
yielding a graph with the identical node list (every field of every
node preserved), the identical edge multiset keyed by
`(source_id, target_id, kind)` (via `export_edges`), and equal node and
edge counts. -/
theorem save_load_round_trip (db : Option SerializedGraph)
    (g : ArborGraph) :
    ∃ g', GraphStore.load_graph (GraphStore.save_graph db g) = some g' ∧
      g'.nodes = g.nodes ∧
      g'.export_edges = g.export_edges ∧
      g'.node_count = g.node_count ∧
      g'.edge_count = g.edge_count :=
  ⟨bincodeDeserialize (bincodeSerialize g), rfl, rfl, rfl, rfl, rfl⟩

/-- C10: `analyze_impact` on a handle with no live node returns the
all-empty record: empty upstream and downstream lists,
`total_affected = 0`, `query_time_ms = 0`, and a target `NodeInfo`
whose string fields are empty and whose line and centrality fields are
zero, for every `max_depth`. -/
theorem analyze_impact_missing_target (g : ArborGraph) (t d : Nat)
    (h : g.get t = none) :
    g.analyze_impact t d =
      { target :=
          { id := ""
            name := ""
            qualified_name := ""
            kind := ""
            file := ""
            line_start := 0
            line_end := 0
            signature := none
            centrality := 0 }
        upstream := []
        downstream := []
        total_affected := 0
        max_depth := d
        query_time_ms := 0 } := by
  unfold ArborGraph.analyze_impact
  unfold ArborGraph.get at h
  rw [h]

/-- C10 witness: the empty graph has no node at handle 0; the theorem
applies and every field evaluates as stated. -/
theorem analyze_impact_missing_target_witness :
    ArborGraph.new.analyze_impact 0 5 =
      { target :=
          { id := ""
            name := ""
            qualified_name := ""
            kind := ""
            file := ""
            line_start := 0
            line_end := 0
            signature := none
            centrality := 0 }
        upstream := []
        downstream := []
        total_affected := 0
        max_depth := 5
        query_time_ms := 0 } :=
  analyze_impact_missing_target ArborGraph.new 0 5 rfl

theorem contains_iff_mem (l : List Nat) (a : Nat) :
    l.contains a = true ↔ a ∈ l := by
  simp [List.contains]

theorem mem_incomingNeighbors {g : ArborGraph} {x n : Nat}
    (h : n ∈ incomingNeighbors g x) :
    ∃ e ∈ g.edges, e.src = n ∧ e.tgt = x := by
  simp only [incomingNeighbors, List.mem_map, List.mem_reverse,
    List.mem_filter] at h
  obtain ⟨e, ⟨he, ht⟩, hs⟩ := h
  exact ⟨e, he, hs, by simpa using ht⟩

theorem walkB_self (g : ArborGraph) (t : Nat) : walkB g t t 0 = true := by
  simp [walkB]

theorem walkB_zero {g : ArborGraph} {t n : Nat}
    (h : walkB g t n 0 = true) : n = t := by
  simpa [walkB] using h

theorem walkB_succ_of_edge {g : ArborGraph} {t n d : Nat} {e : EdgeEntry}
    (he : e ∈ g.edges) (hs : e.src = n) (hw : walkB g t e.tgt d = true) :
    walkB g t n (d + 1) = true := by
  simp only [walkB, List.any_eq_true]
  exact ⟨e, he, by simp [hs, hw]⟩

theorem depLoop_invariant (g : ArborGraph) (index max_depth : Nat) :
    ∀ (fuel : Nat) (visited : List Nat) (queue result : List (Nat × Nat)),
    (∀ p ∈ queue, walkB g index p.1 p.2 = true) →
    (∀ p ∈ result, p.1 ≠ index ∧ 1 ≤ p.2 ∧ p.2 ≤ max_depth ∧
      walkB g index p.1 p.2 = true) →
    (result.map Prod.fst).Nodup →
    (∀ p ∈ result, p.1 ∈ visited) →
    (∀ p ∈ depLoop g index max_depth fuel visited queue result,
      p.1 ≠ index ∧ 1 ≤ p.2 ∧ p.2 ≤ max_depth ∧
      walkB g index p.1 p.2 = true) ∧
    ((depLoop g index max_depth fuel visited queue result).map
      Prod.fst).Nodup := by
  intro fuel
  induction fuel with
  | zero => intro visited queue result hq hr hnd hv; exact ⟨hr, hnd⟩
  | succ fuel ih =>
    intro visited queue result hq hr hnd hv
    match queue with
    | [] => exact ⟨hr, hnd⟩
    | (current, depth) :: rest =>
      simp only [depLoop]
      by_cases hcond : depth > max_depth || visited.contains current
      · rw [if_pos hcond]
        exact ih visited rest result (fun p hp => hq p (by simp [hp])) hr hnd hv
      · rw [if_neg hcond]
        have hdep : ¬ depth > max_depth := by
          intro hh; exact hcond (by simp [hh])
        have hvis : current ∉ visited := by
          intro hh
          exact hcond (by simp [contains_iff_mem, hh])
        have hwcur : walkB g index current depth = true :=
          hq (current, depth) (by simp)
        set visited' := current :: visited with hv'
        set result' :=
          if current ≠ index then result ++ [(current, depth)] else result
          with hr'
        set pushes :=
          ((incomingNeighbors g current).filter
            (fun n => !(visited'.contains n))).map
            (fun n => (n, depth + 1)) with hp'
        have hr'inv : ∀ p ∈ result', p.1 ≠ index ∧ 1 ≤ p.2 ∧
            p.2 ≤ max_depth ∧ walkB g index p.1 p.2 = true := by
          intro p hp
          rw [hr'] at hp
          by_cases hci : current ≠ index
          · rw [if_pos hci] at hp
            rcases List.mem_append.mp hp with hold | hnew
            · exact hr p hold
            · have hpe : p = (current, depth) := by simpa using hnew
              subst hpe
              refine ⟨hci, ?_, by omega, hwcur⟩
              rcases Nat.eq_zero_or_pos depth with h0 | h1
              · exact absurd (walkB_zero (h0 ▸ hwcur)) hci
              · exact h1
          · rw [if_neg hci] at hp
            exact hr p hp
        have hr'nd : (result'.map Prod.fst).Nodup := by
          rw [hr']
          by_cases hci : current ≠ index
          · rw [if_pos hci]
            simp only [List.map_append, List.map_cons, List.map_nil]
            rw [List.nodup_append]
            refine ⟨hnd, List.nodup_singleton _, ?_⟩
            intro a ha hb
            have hac : a = current := by simpa using hb
            subst hac
            obtain ⟨p, hp, hpa⟩ := List.mem_map.mp ha
            exact hvis (hpa ▸ hv p hp)
          · rw [if_neg hci]; exact hnd
        have hr'vis : ∀ p ∈ result', p.1 ∈ visited' := by
          intro p hp
          rw [hr'] at hp
          by_cases hci : current ≠ index
          · rw [if_pos hci] at hp
            rcases List.mem_append.mp hp with hold | hnew
            · exact List.mem_cons_of_mem _ (hv p hold)
            · have hpe : p = (current, depth) := by simpa using hnew
              subst hpe
              exact List.mem_cons_self _ _
          · rw [if_neg hci] at hp
            exact List.mem_cons_of_mem _ (hv p hp)
        have hq' : ∀ p ∈ pushes.reverse ++ rest,
            walkB g index p.1 p.2 = true := by
          intro p hp
          rcases List.mem_append.mp hp with hpush | hrest
          · rw [hp', List.mem_reverse] at hpush
            obtain ⟨n, hn, hpn⟩ := List.mem_map.mp hpush
            have hn' : n ∈ incomingNeighbors g current :=
              (List.mem_filter.mp hn).1
            obtain ⟨e, he, hes, het⟩ := mem_incomingNeighbors hn'
            have : walkB g index n (depth + 1) = true :=
              walkB_succ_of_edge he hes (het ▸ hwcur)
            simpa [← hpn] using this
          · exact hq p (by simp [hrest])
        exact ih visited' (pushes.reverse ++ rest) result' hq' hr'inv
          hr'nd hr'vis

theorem depLoop_skip_all (g : ArborGraph) (index max_depth : Nat) :
    ∀ (fuel : Nat) (visited : List Nat) (queue result : List (Nat × Nat)),
    (∀ p ∈ queue, max_depth < p.2) →
    depLoop g index max_depth fuel visited queue result = result := by
  intro fuel
  induction fuel with
  | zero => intro visited queue result _; rfl
  | succ fuel ih =>
    intro visited queue result hq
    match queue with
    | [] => rfl
    | (current, depth) :: rest =>
      simp only [depLoop]
      have hd : max_depth < depth := hq (current, depth) (by simp)
      rw [if_pos (by simp [hd])]
      exact ih visited rest result (fun p hp => hq p (by simp [hp]))

/-- C3 amended: `get_dependents` is a depth-bounded stack-order (LIFO)
traversal over incoming edges, not a breadth-first search.  What holds
of it: every returned pair `(n, δ)` has `n ≠ t` and `1 ≤ δ ≤ d`, with
`δ` the length of some incoming-edge walk from `n` to `t` (not
necessarily the minimum — and nodes within `d` hops may be omitted
altogether); each node is returned at most once; and the Graph Core
uses the raw `d`, so `d = 0` yields the empty list. -/
theorem get_dependents_sound (g : ArborGraph) (t d : Nat) :
    (∀ p ∈ g.get_dependents t d,
      p.1 ≠ t ∧ 1 ≤ p.2 ∧ p.2 ≤ d ∧ walkB g t p.1 p.2 = true) ∧
    ((g.get_dependents t d).map Prod.fst).Nodup ∧
    g.get_dependents t 0 = [] := by
  have hq0 : ∀ p ∈ [((t, 0) : Nat × Nat)], walkB g t p.1 p.2 = true := by
    intro p hp
    have hpe : p = (t, 0) := by simpa using hp
    subst hpe
    exact walkB_self g t
  have H := depLoop_invariant g t d
    ((g.nodes.length + 2 * g.edges.length + 2) * (g.edges.length + 2))
    [] [(t, 0)] [] hq0 (by simp) (by simp) (by simp)
  refine ⟨H.1, H.2, ?_⟩
  have hFpos : 0 <
      (g.nodes.length + 2 * g.edges.length + 2) * (g.edges.length + 2) :=
    Nat.mul_pos (by omega) (by omega)
  obtain ⟨F, hF⟩ : ∃ F,
      (g.nodes.length + 2 * g.edges.length + 2) * (g.edges.length + 2) =
        F + 1 :=
    ⟨(g.nodes.length + 2 * g.edges.length + 2) * (g.edges.length + 2) - 1,
      by omega⟩
  show depLoop g t 0
    ((g.nodes.length + 2 * g.edges.length + 2) * (g.edges.length + 2))
    [] [(t, 0)] [] = []
  rw [hF]
  simp only [depLoop, gt_iff_lt, Nat.lt_irrefl, decide_False,
    List.contains, List.elem_nil, Bool.or_self, Bool.false_or,
    if_false, ne_eq, not_true_eq_false, if_neg, ite_self]
  exact depLoop_skip_all g t 0 F [t] _ [] (by
    intro p hp
    rcases List.mem_append.mp hp with hpp | hpp
    · rw [List.mem_reverse] at hpp
      obtain ⟨n, _, hpn⟩ := List.mem_map.mp hpp
      rw [← hpn]
      simp
    · simp at hpp)

/-- C3 amended, witness: in `gDep` the pair `(1, 1)` (node `a` at
depth 1) is returned by `get_dependents 0 2`, and the theorem's
guarantees evaluate as stated for it. -/
theorem get_dependents_sound_witness :
    (1 : Nat) ≠ 0 ∧ 1 ≤ (1 : Nat) ∧ (1 : Nat) ≤ 2 ∧
      walkB gDep 0 1 1 = true :=
  (get_dependents_sound gDep 0 2).1 (1, 1) (by decide)

theorem bfsExpand_queue_depth (g : ArborGraph) (dir : PDirection)
    (visited : List Nat) (current depth : Nat) (k : EdgeKind)
    (st : List (Nat × Nat × EdgeKind) × List (Nat × EdgeKind))
    (hst : ∀ q ∈ st.1, 1 ≤ q.2.1) :
    ∀ q ∈ (bfsExpand g dir visited current depth k st).1, 1 ≤ q.2.1 := by
  unfold bfsExpand
  generalize edgesDirected g current dir = l
  induction l generalizing st with
  | nil => exact hst
  | cons e l ih =>
    rw [List.foldl_cons]
    apply ih
    intro q hq
    by_cases hv : visited.contains (edgeNeighbor dir e)
    · simp only [hv, if_true] at hq
      exact hst q hq
    · simp only [eq_false_of_ne_true hv, if_false] at hq
      rcases List.mem_append.mp hq with hold | hnew
      · exact hst q hold
      · have hqe : q = (edgeNeighbor dir e, depth + 1,
            (alGet st.2 (edgeNeighbor dir e)).getD k) := by simpa using hnew
        rw [hqe]
        exact Nat.succ_le_succ (Nat.zero_le depth)

theorem bfsSeed_queue_depth (g : ArborGraph) (target : Nat)
    (dir : PDirection) :
    ∀ q ∈ (bfsSeed g target dir).1, 1 ≤ q.2.1 := by
  unfold bfsSeed
  generalize edgesDirected g target dir = l
  have main : ∀ (l : List EdgeEntry)
      (st : List (Nat × Nat × EdgeKind) × List (Nat × EdgeKind)),
      (∀ q ∈ st.1, 1 ≤ q.2.1) →
      ∀ q ∈ (l.foldl
        (fun st e =>
          let neighbor := edgeNeighbor dir e
          if [target].contains neighbor then st
          else
            (st.1 ++ [(neighbor, 1, e.w.kind)],
              alInsert st.2 neighbor e.w.kind)) st).1, 1 ≤ q.2.1 := by
    intro l
    induction l with
    | nil => intro st hst; exact hst
    | cons e l ih =>
      intro st hst
      rw [List.foldl_cons]
      apply ih
      intro q hq
      by_cases hv : List.contains [target] (edgeNeighbor dir e)
      · simp only [hv, if_true] at hq
        exact hst q hq
      · simp only [eq_false_of_ne_true hv, if_false] at hq
        rcases List.mem_append.mp hq with hold | hnew
        · exact hst q hold
        · have hqe : q = (edgeNeighbor dir e, 1, e.w.kind) := by
            simpa using hnew
          rw [hqe]
  exact main l ([], []) (by simp)

theorem bfsLoop_result_inv (g : ArborGraph) (dir : PDirection)
    (max_depth : Nat) :
    ∀ (fuel : Nat) (visited : List Nat)
      (queue : List (Nat × Nat × EdgeKind))
      (entry : List (Nat × EdgeKind)) (result : List AffectedNode),
    (∀ q ∈ queue, 1 ≤ q.2.1) →
    (∀ a ∈ result, 1 ≤ a.hop_distance ∧
      a.severity = ImpactSeverity.from_hops a.hop_distance) →
    ∀ a ∈ bfsLoop g dir max_depth fuel visited queue entry result,
      1 ≤ a.hop_distance ∧
      a.severity = ImpactSeverity.from_hops a.hop_distance := by
  intro fuel
  induction fuel with
  | zero => intro _ _ _ _ _ hr; exact hr
  | succ fuel ih =>
    intro visited queue entry result hq hr
    match queue with
    | [] => exact hr
    | (current, depth, entry_edge) :: rest =>
      simp only [bfsLoop]
      by_cases hcond : depth > max_depth || visited.contains current
      · rw [if_pos hcond]
        exact ih visited rest entry result
          (fun q hqq => hq q (by simp [hqq])) hr
      · rw [if_neg hcond]
        have hdep1 : 1 ≤ depth := hq (current, depth, entry_edge) (by simp)
        have hres' : ∀ a ∈ (match g.nodes.get? current with
            | some node =>
              result ++ [mkAffected g dir current depth entry_edge node]
            | none => result),
            1 ≤ a.hop_distance ∧
            a.severity = ImpactSeverity.from_hops a.hop_distance := by
          cases hget : g.nodes.get? current with
          | none => simpa using hr
          | some node =>
            intro a ha
            simp only [List.mem_append] at ha
            rcases ha with hold | hnew
            · exact hr a hold
            · have : a = mkAffected g dir current depth entry_edge node := by
                simpa using hnew
              rw [this]
              exact ⟨hdep1, rfl⟩
        by_cases hlt : depth < max_depth
        · rw [if_pos hlt]
          apply ih
          · exact bfsExpand_queue_depth g dir (current :: visited) current
              depth entry_edge (rest, entry)
              (fun q hqq => hq q (by simp [hqq]))
          · exact hres'
        · rw [if_neg hlt]
          exact ih (current :: visited) rest entry _
            (fun q hqq => hq q (by simp [hqq])) hres'

theorem bfs_impact_inv (g : ArborGraph) (target : Nat) (dir : PDirection)
    (max_depth : Nat) :
    ∀ a ∈ g.bfs_impact target dir max_depth,
      1 ≤ a.hop_distance ∧
      a.severity = ImpactSeverity.from_hops a.hop_distance := by
  intro a ha
  rw [ArborGraph.bfs_impact, mem_sortBy] at ha
  exact bfsLoop_result_inv g dir max_depth _ [target] (bfsSeed g target dir).1
    (bfsSeed g target dir).2 [] (bfsSeed_queue_depth g target dir)
    (by simp) a ha

theorem from_hops_cases (n : Nat) :
    (n ≤ 1 → ImpactSeverity.from_hops n = ImpactSeverity.Direct) ∧
    (2 ≤ n → n ≤ 3 → ImpactSeverity.from_hops n =
      ImpactSeverity.Transitive) ∧
    (4 ≤ n → ImpactSeverity.from_hops n = ImpactSeverity.Distant) := by
  match n with
  | 0 | 1 =>
    exact ⟨fun _ => rfl, fun h _ => by omega, fun h => by omega⟩
  | 2 | 3 =>
    exact ⟨fun h => by omega, fun _ _ => rfl, fun h => by omega⟩
  | (n + 4) =>
    exact ⟨fun h => by omega, fun _ h => by omega, fun _ => rfl⟩

/-- C8: every node in the upstream or downstream list of
`analyze_impact` has `hop_distance ≥ 1` and a severity equal to
`from_hops` of its hop distance, which follows the fixed rule: Direct
for hops 0-1, Transitive for hops 2-3, Distant for 4 or more. -/
theorem impact_severity_consistent (g : ArborGraph) (t d : Nat)
    (a : AffectedNode)
    (h : a ∈ (g.analyze_impact t d).upstream ∨
      a ∈ (g.analyze_impact t d).downstream) :
    1 ≤ a.hop_distance ∧
    a.severity = ImpactSeverity.from_hops a.hop_distance ∧
    (a.hop_distance ≤ 1 → a.severity = ImpactSeverity.Direct) ∧
    (2 ≤ a.hop_distance → a.hop_distance ≤ 3 →
      a.severity = ImpactSeverity.Transitive) ∧
    (4 ≤ a.hop_distance → a.severity = ImpactSeverity.Distant) := by
  have base : 1 ≤ a.hop_distance ∧
      a.severity = ImpactSeverity.from_hops a.hop_distance := by
    unfold ArborGraph.analyze_impact at h
    cases hget : g.nodes.get? t with
    | none =>
      rw [hget] at h
      simp at h
    | some node =>
      rw [hget] at h
      rcases h with hu | hd
      · exact bfs_impact_inv g t PDirection.Incoming _ a hu
      · exact bfs_impact_inv g t PDirection.Outgoing _ a hd
  have hc := from_hops_cases a.hop_distance
  exact ⟨base.1, base.2,
    fun h1 => base.2.trans (hc.1 h1),
    fun h2 h3 => base.2.trans (hc.2.1 h2 h3),
    fun h4 => base.2.trans (hc.2.2 h4)⟩

/-- C8 witness: in `gPair` (one Calls edge `a → b`),
`analyze_impact a 5` reports `b` downstream at hop 1 with severity
Direct; the theorem's guarantees evaluate as stated on that node. -/
theorem impact_severity_consistent_witness :
    1 ≤ aff8.hop_distance ∧
    aff8.severity = ImpactSeverity.from_hops aff8.hop_distance ∧
    (aff8.hop_distance ≤ 1 → aff8.severity = ImpactSeverity.Direct) ∧
    (2 ≤ aff8.hop_distance → aff8.hop_distance ≤ 3 →
      aff8.severity = ImpactSeverity.Transitive) ∧
    (4 ≤ aff8.hop_distance → aff8.severity = ImpactSeverity.Distant) :=
  impact_severity_consistent gPair 0 5 aff8
    (Or.inr (by
      rw [show (gPair.analyze_impact 0 5).downstream = [aff8] from rfl]
      exact List.mem_singleton_self _))

theorem filterMap_congr_of_mem {α β : Type} {l : List α}
    {f f' : α → Option β} (h : ∀ a ∈ l, f a = f' a) :
    l.filterMap f = l.filterMap f' := by
  induction l with
  | nil => rfl
  | cons x xs ih =>
    rw [List.filterMap_cons, List.filterMap_cons, h x (by simp),
      ih (fun a ha => h a (by simp [ha]))]

theorem filterMap_ite_eq_filter_filterMap {α β : Type} (p : α → Bool)
    (f : α → Option β) (l : List α) :
    (l.filterMap fun a => if p a then f a else none) =
      (l.filter p).filterMap f := by
  induction l with
  | nil => rfl
  | cons x xs ih =>
    by_cases hp : p x
    · rw [List.filterMap_cons, if_pos hp, List.filter_cons, if_pos hp,
        List.filterMap_cons]
      cases f x <;> simp [ih]
    · rw [List.filterMap_cons, if_neg hp, List.filter_cons,
        if_neg (by simpa using hp), ih]

theorem edge_pair_unique {g : ArborGraph}
    (hnd : (g.edges.map (fun e => (e.src, e.tgt))).Nodup) :
    ∀ e1 ∈ g.edges, ∀ e2 ∈ g.edges,
      e1.src = e2.src → e1.tgt = e2.tgt → e1 = e2 := by
  intro e1 h1 e2 h2 hs ht
  exact List.inj_on_of_nodup_map hnd h1 h2 (by simp [hs, ht])

theorem findEdge_of_mem {g : ArborGraph}
    (hnd : (g.edges.map (fun e => (e.src, e.tgt))).Nodup)
    {e : EdgeEntry} (he : e ∈ g.edges) :
    findEdge g e.src e.tgt = some e := by
  unfold findEdge
  cases hf : g.edges.reverse.find?
      (fun x => x.src == e.src && x.tgt == e.tgt) with
  | none =>
    exfalso
    have := List.find?_eq_none.mp hf e (by simpa using he)
    simp at this
  | some e' =>
    have hp := List.find?_some hf
    have hm : e' ∈ g.edges := by
      simpa using List.mem_of_find?_eq_some hf
    simp only [Bool.and_eq_true, beq_iff_eq] at hp
    rw [edge_pair_unique hnd e' hm e he hp.1 hp.2]

theorem calls_filter_split (g : ArborGraph) (h : Nat) :
    ((g.edges.filter fun x => x.tgt == h).reverse.filter
      fun e => e.w.kind == EdgeKind.Calls) =
    (g.edges.filter fun e => e.tgt == h && e.w.kind == EdgeKind.Calls).reverse
    := by
  rw [List.filter_reverse, List.filter_filter]
  congr 1
  apply List.filter_congr
  intro e _
  exact Bool.and_comm _ _

theorem calls_filter_split_out (g : ArborGraph) (h : Nat) :
    ((g.edges.filter fun x => x.src == h).reverse.filter
      fun e => e.w.kind == EdgeKind.Calls) =
    (g.edges.filter fun e => e.src == h && e.w.kind == EdgeKind.Calls).reverse
    := by
  rw [List.filter_reverse, List.filter_filter]
  congr 1
  apply List.filter_congr
  intro e _
  exact Bool.and_comm _ _

theorem get_callers_spec (g : ArborGraph) (h : Nat)
    (hnd : (g.edges.map (fun e => (e.src, e.tgt))).Nodup) :
    g.get_callers h = (callsSources g h).filterMap g.nodes.get? := by
  unfold ArborGraph.get_callers incomingNeighbors callsSources
  rw [List.filterMap_map, List.filterMap_map]
  have hstep : ∀ e ∈ (g.edges.filter fun x => x.tgt == h).reverse,
      ((fun idx =>
        match findEdge g idx h with
        | none => none
        | some e' =>
          if e'.w.kind == EdgeKind.Calls then g.nodes.get? idx else none) ∘
        (fun e => e.src)) e =
      (fun e =>
        if e.w.kind == EdgeKind.Calls then g.nodes.get? e.src else none) e
      := by
    intro e he
    rw [List.mem_reverse, List.mem_filter] at he
    have htgt : e.tgt = h := by simpa using he.2
    have hfe : findEdge g e.src h = some e := by
      rw [← htgt]
      exact findEdge_of_mem hnd he.1
    simp only [Function.comp_apply, hfe]
  rw [filterMap_congr_of_mem hstep, filterMap_ite_eq_filter_filterMap,
    calls_filter_split]
  rfl

theorem get_callees_spec (g : ArborGraph) (h : Nat)
    (hnd : (g.edges.map (fun e => (e.src, e.tgt))).Nodup) :
    g.get_callees h = (callsTargets g h).filterMap g.nodes.get? := by
  unfold ArborGraph.get_callees outgoingNeighbors callsTargets
  rw [List.filterMap_map, List.filterMap_map]
  have hstep : ∀ e ∈ (g.edges.filter fun x => x.src == h).reverse,
      ((fun idx =>
        match findEdge g h idx with
        | none => none
        | some e' =>
          if e'.w.kind == EdgeKind.Calls then g.nodes.get? idx else none) ∘
        (fun e => e.tgt)) e =
      (fun e =>
        if e.w.kind == EdgeKind.Calls then g.nodes.get? e.tgt else none) e
      := by
    intro e he
    rw [List.mem_reverse, List.mem_filter] at he
    have hsrc : e.src = h := by simpa using he.2
    have hfe : findEdge g h e.tgt = some e := by
      rw [← hsrc]
      exact findEdge_of_mem hnd he.1
    simp only [Function.comp_apply, hfe]
  rw [filterMap_congr_of_mem hstep, filterMap_ite_eq_filter_filterMap,
    calls_filter_split_out]
  rfl

theorem callsSources_nodup (g : ArborGraph) (h : Nat)
    (hnd : (g.edges.map (fun e => (e.src, e.tgt))).Nodup) :
    (callsSources g h).Nodup := by
  unfold callsSources
  apply List.Nodup.map_on
  · intro e1 h1 e2 h2 hs
    rw [List.mem_reverse, List.mem_filter] at h1 h2
    have ht1 : e1.tgt = h := by
      have := h1.2
      simp only [Bool.and_eq_true, beq_iff_eq] at this
      exact this.1
    have ht2 : e2.tgt = h := by
      have := h2.2
      simp only [Bool.and_eq_true, beq_iff_eq] at this
      exact this.1
    exact edge_pair_unique hnd e1 h1.1 e2 h2.1 hs (ht1.trans ht2.symm)
  · rw [List.nodup_reverse]
    exact (hnd.of_map).filter _

theorem callsTargets_nodup (g : ArborGraph) (h : Nat)
    (hnd : (g.edges.map (fun e => (e.src, e.tgt))).Nodup) :
    (callsTargets g h).Nodup := by
  unfold callsTargets
  apply List.Nodup.map_on
  · intro e1 h1 e2 h2 ht
    rw [List.mem_reverse, List.mem_filter] at h1 h2
    have hs1 : e1.src = h := by
      have := h1.2
      simp only [Bool.and_eq_true, beq_iff_eq] at this
      exact this.1
    have hs2 : e2.src = h := by
      have := h2.2
      simp only [Bool.and_eq_true, beq_iff_eq] at this
      exact this.1
    exact edge_pair_unique hnd e1 h1.1 e2 h2.1 (hs1.trans hs2.symm) ht
  · rw [List.nodup_reverse]
    exact (hnd.of_map).filter _

/-- C7 amended: when at most one edge connects each ordered pair of
nodes (no parallel edges), `get_callers h` returns exactly the weights
of the sources of the `Calls` edges into `h`, each source exactly once
(the source list has no duplicates), and `get_callees h` symmetrically
returns the targets of the `Calls` edges out of `h`.  With parallel
edges this fails: `find_edge` consults only the most recently added
edge of the pair, so a neighbor is counted once per parallel edge when
that newest edge is a `Calls` edge and not at all otherwise. -/
theorem callers_callees_without_parallel_edges (g : ArborGraph) (h : Nat)
    (hnd : (g.edges.map (fun e => (e.src, e.tgt))).Nodup) :
    g.get_callers h = (callsSources g h).filterMap g.nodes.get? ∧
    (callsSources g h).Nodup ∧
    g.get_callees h = (callsTargets g h).filterMap g.nodes.get? ∧
    (callsTargets g h).Nodup :=
  ⟨get_callers_spec g h hnd, callsSources_nodup g h hnd,
    get_callees_spec g h hnd, callsTargets_nodup g h hnd⟩

/-- C7 amended, witness: `gPair` has the single edge `a → b` of kind
Calls, so the no-parallel-edges hypothesis holds and the theorem
applies; the characterization evaluates as stated. -/
theorem callers_callees_without_parallel_edges_witness :
    gPair.get_callers 1 = (callsSources gPair 1).filterMap
      gPair.nodes.get? ∧
    (callsSources gPair 1).Nodup ∧
    gPair.get_callees 1 = (callsTargets gPair 1).filterMap
      gPair.nodes.get? ∧
    (callsTargets gPair 1).Nodup :=
  callers_callees_without_parallel_edges gPair 1 (by decide)
